import Mathlib

/-!
Verification development for the static-asset HTTP server
(content negotiation and cache validation engine).

The definitions below are a shallow embedding of the Rust sources:
  * `src/server/src/encoding.rs`         — the `Encoding` catalog
  * `src/server/src/util/quality.rs`     — `Quality` / `QualityValue` parse and format
  * `src/server/src/accept_encoding.rs`  — `AcceptEncoding::iter/choose_by`
  * `src/server/src/if_none_match.rs`    — `IfNoneMatch::precondition_passes`
  * `src/server/src/etag.rs`             — `ETag` parsing
  * `src/server/dist/lib.rs`             — `ETagHeaderValue::create`
  * `src/server/src/bin/server.rs`       — `root_handle`, `handle`, `static_handle`

`util/entity.rs` and `util/flat_csv.rs` are declared in `util/mod.rs` but their
sources are not available; the corresponding definitions are modelled from the
specification and are marked as such in their doc comments.

Rust `f32` arithmetic in `quality.rs` (`q_part.parse::<f32>()` and
`(f * 1000f32) as u16`) is embedded exactly: decimal literals are converted to
exact rationals (as integer pairs) and rounded to the IEEE-754 binary32 grid
with round-to-nearest, ties-to-even, including subnormals and overflow to
infinity; the final conversion truncates toward zero.
-/

namespace StaticServer

/-! ### Generic character-list utilities (embedding of `str` operations) -/

/-- Split a character list at every occurrence of `sep`
(embeds Rust `str::split(sep)`; always returns at least one segment). -/
def splitOnChar (sep : Char) : List Char → List (List Char)
  | [] => [[]]
  | c :: cs =>
    if c = sep then
      [] :: splitOnChar sep cs
    else
      match splitOnChar sep cs with
      | [] => [[c]]
      | h :: t => (c :: h) :: t

/-- Drop leading whitespace (embeds the leading half of Rust `str::trim`). -/
def trimLeft (l : List Char) : List Char := l.dropWhile Char.isWhitespace

/-- Trim whitespace at both ends (embeds Rust `str::trim`). -/
def trim (l : List Char) : List Char :=
  (trimLeft (trimLeft l).reverse).reverse

/-- UTF-8 byte length of a character list (embeds Rust `str::len`). -/
def byteLen (l : List Char) : Nat := (l.map Char.utf8Size).sum

/-- Join segments with a separator character (left inverse of
`splitOnChar`, used to reconstruct `parts[1]` of `rsplitn(2, ';')`). -/
def joinSep (sep : Char) : List (List Char) → List Char
  | [] => []
  | [x] => x
  | x :: y :: t => x ++ sep :: joinSep sep (y :: t)

/-- Numeric value of a decimal digit string (most significant first). -/
def digitsVal (l : List Char) : Nat :=
  l.foldl (fun a c => a * 10 + (c.toNat - 48)) 0

/-- A character is valid inside an HTTP header value
(embeds `http::HeaderValue` byte validity: horizontal tab, or a visible
byte that is not DEL; bytes ≥ 0x80 are obs-text and valid). -/
def headerValueOkChar (c : Char) : Bool :=
  c = '\t' || (32 ≤ c.toNat && c.toNat ≠ 127)

/-- A string is a valid HTTP header value (embeds `HeaderValue::try_from`). -/
def headerValueOk (s : String) : Bool := s.data.all headerValueOkChar

/-! ### Encoding catalog (`src/server/src/encoding.rs`) -/

/-- Content-coding tokens; unknown tokens are captured as `ext`
(embeds `enum Encoding`). -/
inductive Encoding where
  | chunked
  | brotli
  | gzip
  | deflate
  | compress
  | identity
  | trailers
  | zstd
  | ext (s : String)
deriving DecidableEq, Repr

/-- Text form of an encoding (embeds `impl fmt::Display for Encoding`). -/
def encToString : Encoding → String
  | .chunked => "chunked"
  | .brotli => "br"
  | .gzip => "gzip"
  | .deflate => "deflate"
  | .compress => "compress"
  | .identity => "identity"
  | .trailers => "trailers"
  | .zstd => "zstd"
  | .ext s => s

/-- Parse an encoding token; never fails
(embeds `impl FromStr for Encoding`, which always returns `Ok`). -/
def Encoding.fromStr (s : String) : Encoding :=
  if s = "chunked" then .chunked
  else if s = "br" then .brotli
  else if s = "deflate" then .deflate
  else if s = "gzip" then .gzip
  else if s = "compress" then .compress
  else if s = "identity" then .identity
  else if s = "trailers" then .trailers
  else if s = "zstd" then .zstd
  else .ext s

/-! ### IEEE-754 binary32 model (exact integer arithmetic)

Embeds the `f32` computations of `quality.rs`.  A non-negative finite `f32`
value is represented as an exact fraction `(num, den)` of naturals. -/

/-- Test `2 ^ e ≤ p / q` for integer `e` using only natural arithmetic. -/
def le2pow (e : Int) (p q : Nat) : Bool :=
  if 0 ≤ e then 2 ^ e.toNat * q ≤ p else q ≤ p * 2 ^ (-e).toNat

/-- Finds the largest binary exponent `e ∈ [-126, 127]` with `2 ^ e ≤ p / q`
by scanning downward; `none` means `p / q` is in the subnormal range.
The fuel argument is `254` at the top call, mapping `i+1 ↦ e = i - 126`. -/
def findExpAux (p q : Nat) : Nat → Option Int
  | 0 => none
  | i + 1 => if le2pow ((i : Int) - 126) p q then some ((i : Int) - 126) else findExpAux p q i

/-- Round the non-negative integer ratio `a / b` to the nearest integer,
ties to even (the IEEE-754 default rounding applied on a binade grid). -/
def rnte (a b : Nat) : Nat :=
  let m := a / b
  let r := a % b
  if 2 * r < b then m
  else if b < 2 * r then m + 1
  else if m % 2 = 0 then m else m + 1

/-- Round the exact non-negative rational `p / q` to the nearest binary32
value (ties to even); the result is an exact fraction, `none` on overflow to
infinity. Subnormals round on the fixed grid `2 ^ (-149)`. -/
def roundF32 (p q : Nat) : Option (Nat × Nat) :=
  if p = 0 then some (0, 1)
  else
    match findExpAux p q 254 with
    | some e =>
      let g : Int := e - 23
      if 0 ≤ g then
        let m := rnte p (q * 2 ^ g.toNat)
        if 2 ^ (128 - g).toNat ≤ m then none
        else some (m * 2 ^ g.toNat, 1)
      else
        some (rnte (p * 2 ^ (-g).toNat) q, 2 ^ (-g).toNat)
    | none => some (rnte (p * 2 ^ 149) q, 2 ^ 149)

/-! ### Rust `f32` literal parsing (`q_part.parse::<f32>()`)

`parseF32` returns `none` when the literal is rejected by Rust's grammar, and
otherwise the sign together with the correctly rounded binary32 value
(`none` inside for an infinity, including `inf`/`infinity`/`nan` tokens and
overflow; all such values fail the `(0f32..=1f32).contains` test exactly like
the rejected literals fail parsing, and both paths yield `Error::invalid`,
so collapsing NaN with infinity is observation-equivalent). -/

/-- Parse an unsigned decimal mantissa `digits | digits.digits | .digits`
into `(numerator, fractionalDigitCount)`. -/
def parseMantissa (l : List Char) : Option (Nat × Nat) :=
  match splitOnChar '.' l with
  | [d] => if d ≠ [] && d.all Char.isDigit then some (digitsVal d, 0) else none
  | [d1, d2] =>
    if (d1 ++ d2) ≠ [] && (d1 ++ d2).all Char.isDigit then
      some (digitsVal (d1 ++ d2), d2.length)
    else none
  | _ => none

/-- Parse an optionally signed decimal exponent (nonempty digits). -/
def parseExponent (l : List Char) : Option Int :=
  let (neg, d) : Bool × List Char :=
    match l with
    | '+' :: t => (false, t)
    | '-' :: t => (true, t)
    | t => (false, t)
  if d ≠ [] && d.all Char.isDigit then
    some (if neg then -(digitsVal d : Int) else (digitsVal d : Int))
  else none

/-- Combine mantissa and exponent into an exact fraction of naturals. -/
def literalFraction (m : Nat) (k : Nat) (e : Int) : Nat × Nat :=
  if 0 ≤ e - (k : Int) then (m * 10 ^ (e - (k : Int)).toNat, 1)
  else (m, 10 ^ ((k : Int) - e).toNat)

/-- Parse a Rust `f32` literal: optional sign, then `inf`/`infinity`/`nan`
(case-insensitive) or a decimal mantissa with optional `e`/`E` exponent.
Returns the sign and the rounded binary32 magnitude (inner `none` = ∞/NaN). -/
def parseF32 (l : List Char) : Option (Bool × Option (Nat × Nat)) :=
  let (sgn, rest) : Bool × List Char :=
    match l with
    | '+' :: t => (false, t)
    | '-' :: t => (true, t)
    | t => (false, t)
  let low := rest.map Char.toLower
  if low = "inf".data || low = "infinity".data || low = "nan".data then
    some (sgn, none)
  else
    match splitOnChar 'e' low with
    | [m] =>
      match parseMantissa m with
      | some (num, k) =>
        let (p, q) := literalFraction num k 0
        some (sgn, roundF32 p q)
      | none => none
    | [m, ex] =>
      match parseMantissa m, parseExponent ex with
      | some (num, k), some e =>
        let (p, q) := literalFraction num k e
        some (sgn, roundF32 p q)
      | _, _ => none
    | _ => none

/-! ### Quality values (`src/server/src/util/quality.rs`) -/

/-- An item with a quality weight; the quality is the `u16` payload of
`Quality` (embeds `struct QualityValue<T>` with `Quality(u16)`). -/
structure QualityValue (T : Type) where
  value : T
  quality : Nat
deriving DecidableEq, Repr

/-- Test whether the parsed `f32` passes `(0f32..=1f32).contains`:
NaN and ±∞ fail; a finite value passes iff it is in `[0, 1]`
(IEEE `-0.0` compares equal to `0.0`, so a negative zero passes). -/
def f32InRange (sgn : Bool) (v : Option (Nat × Nat)) : Bool :=
  match v with
  | none => false
  | some (n, d) => (!sgn || n = 0) && n ≤ d

/-- The stored quality for an in-range parsed value: the binary32 product
`f * 1000f32` truncated toward zero (embeds `from_f32`, i.e.
`(f * 1000f32) as u16`; the product of a value in `[0,1]` never overflows). -/
def qualityOfF32 (sgn : Bool) (v : Option (Nat × Nat)) : Nat :=
  match v with
  | none => 0
  | some (n, d) =>
    if sgn then 0
    else
      match roundF32 (n * 1000) d with
      | some (n2, d2) => n2 / d2
      | none => 0

/-- Whether a trimmed trailing segment begins with `q=` or `Q=`. -/
def isQKey (l : List Char) : Bool :=
  List.isPrefixOf ['q', '='] l || List.isPrefixOf ['Q', '='] l

/-- Parse a token `item[;q=<float>]` (embeds
`impl FromStr for QualityValue<T>`): split once from the right on `;`
(`rsplitn(2, ';')` with both parts trimmed); a present trailing segment of
trimmed byte length `< 2` is an error; a segment starting with `q=`/`Q=` must
carry a quality text of at most 5 bytes parsing to an `f32` in `[0, 1]` or
the whole token fails, and on success the trimmed head is parsed as `T`;
any other trailing segment is ignored and the whole raw text is parsed
as `T` with default quality 1000. -/
def qvFromStr {T : Type} (parseT : List Char → Option T) (s : List Char) :
    Option (QualityValue T) :=
  let ps := splitOnChar ';' s
  if ps.length ≤ 1 then (parseT s).map (fun v => ⟨v, 1000⟩)
  else
    let p0 := trim (ps.getLastD [])
    let p1 := trim (joinSep ';' ps.dropLast)
    if byteLen p0 < 2 then none
    else if isQKey p0 then
      let qPart := p0.drop 2
      if 5 < byteLen qPart then none
      else
        match parseF32 qPart with
        | none => none
        | some (sgn, v) =>
          if f32InRange sgn v then
            (parseT p1).map (fun x => ⟨x, qualityOfF32 sgn v⟩)
          else none
    else (parseT s).map (fun v => ⟨v, 1000⟩)

/-- Encoding parse as used inside quality values: it never fails. -/
def encParse (l : List Char) : Option Encoding :=
  some (Encoding.fromStr (String.mk l))

/-- Parse one `Accept-Encoding` entry (token with optional quality). -/
def qvEnc (s : List Char) : Option (QualityValue Encoding) :=
  qvFromStr encParse s

/-! ### Quality value formatting (`impl fmt::Display for QualityValue`) -/

/-- Zero-padded three digit decimal rendering of `q ≤ 999`
(embeds `format!("{:03}", x)`). -/
def pad3 (q : Nat) : List Char :=
  let s := (Nat.repr q).data
  List.replicate (3 - s.length) '0' ++ s

/-- Remove all trailing `'0'` characters
(embeds `str::trim_end_matches('0')`). -/
def trimZeros (l : List Char) : List Char :=
  (l.reverse.dropWhile (fun c => c = '0')).reverse

/-- Quality suffix rendering (embeds the `match self.quality.0` arms of
`QualityValue::fmt`): nothing at 1000, `"; q=0"` at 0, otherwise
`"; q=0."` followed by the padded digits with trailing zeros trimmed. -/
def fmtSuffix (q : Nat) : String :=
  if q = 1000 then ""
  else if q = 0 then "; q=0"
  else "; q=0." ++ String.mk (trimZeros (pad3 q))

/-- Full rendering of a quality value (value text then quality suffix). -/
def qvToString {T : Type} (showT : T → String) (qv : QualityValue T) : String :=
  showT qv.value ++ fmtSuffix qv.quality

/-! ### Accept-Encoding selector (`src/server/src/accept_encoding.rs`) -/

/-- Modelled from the spec: `util/flat_csv.rs` (the `FlatCsv` segment
iterator) is not among the available sources; the specification states that
parsing an `Accept-Encoding` value splits on commas and parses each trimmed
segment, and the repository's own `from_iter` test fixes the comma-space
join used on encode. -/
def flatCsvSegments (l : List Char) : List (List Char) :=
  (splitOnChar ',' l).map trim

/-- Parse an `Accept-Encoding` value into quality values, dropping entries
that fail to parse (embeds `AcceptEncoding::iter`, whose `flat_map`
discards `Err` results per entry). -/
def aeIterChars (l : List Char) : List (QualityValue Encoding) :=
  (flatCsvSegments l).filterMap qvEnc

/-- Insert into a list sorted by strictly descending-or-equal quality,
placing the new element after every element of greater or equal quality. -/
def insertDesc (x : QualityValue Encoding) :
    List (QualityValue Encoding) → List (QualityValue Encoding)
  | [] => [x]
  | y :: ys => if x.quality ≤ y.quality then y :: insertDesc x ys else x :: y :: ys

/-- Stable sort by quality, highest first: elements of equal quality keep
their original left-to-right order (embeds
`sort_by_key(|q| Reverse(q.quality()))`, which Rust guarantees stable;
any two stable sorts by the same key coincide). -/
def sortDesc (l : List (QualityValue Encoding)) : List (QualityValue Encoding) :=
  l.foldl (fun acc x => insertDesc x acc) []

/-- Scan the (sorted) server-preferred list and return the value of the
first client entry whose encoding equals a server-preferred encoding
(embeds the `for v in choose_values` loop of `choose_by`). -/
def chooseByAux (qs : List (QualityValue Encoding)) :
    List (QualityValue Encoding) → Encoding
  | [] => .identity
  | v :: vs =>
    match qs.find? (fun q => decide (q.value = v.value)) with
    | some q => q.value
    | none => chooseByAux qs vs

/-- Resolve the response encoding against a server-declared preference list
(embeds `AcceptEncoding::choose_by`: both lists are stable-sorted by quality
descending; the first server-preferred encoding present in the client list,
by value equality only, wins; otherwise `identity`). -/
def chooseBy (client server : List (QualityValue Encoding)) : Encoding :=
  chooseByAux (sortDesc client) (sortDesc server)

/-! ### Entity tags and preconditions -/

/-- Modelled from the spec: `util/entity.rs` is not among the available
sources.  An entity tag is a weakness flag plus the opaque quoted contents
(field `tagText`); the specification states an `EntityTag` parses from a
single quoted string optionally prefixed with `W/` denoting weak. -/
structure EntityTag where
  weak : Bool
  tagText : String
deriving DecidableEq, Repr

/-- Render an entity tag in header form (`W/`-prefixed when weak,
contents in double quotes). -/
def etagToString (t : EntityTag) : String :=
  (if t.weak then "W/" else "") ++ "\"" ++ t.tagText ++ "\""

/-- Modelled from the spec: the entity-tag parser of the missing
`util/entity.rs` — an optional `W/` prefix denotes weak, the rest must be a
single quoted string (quote-delimited, no interior quote); parsing in
`etag.rs` first requires a valid header value. -/
def parseETag (s : String) : Option EntityTag :=
  if headerValueOk s then
    let (w, rest) : Bool × List Char :=
      if List.isPrefixOf ['W', '/'] s.data then (true, s.data.drop 2) else (false, s.data)
    match rest with
    | '"' :: t =>
      if h : t = [] then none
      else
        let mid := t.dropLast
        if t.getLast h = '"' && !mid.contains '"' then
          some ⟨w, String.mk mid⟩
        else none
    | _ => none
  else none

/-- Modelled from the spec: `EntityTagRange` is declared in the missing
`util/entity.rs`; the precondition operand of `If-None-Match` is `*` or a
list of tags, and the spec states `Any` matches every tag. -/
inductive EntityTagRange where
  | any
  | tags (l : List EntityTag)
deriving DecidableEq, Repr

/-- Modelled from the spec: the `matches_weak` comparison of the missing
`util/entity.rs` — two tags are weak-equal iff their opaque values are
byte-equal regardless of strength, and `Any` matches every tag. -/
def matchesWeak (r : EntityTagRange) (t : EntityTag) : Bool :=
  match r with
  | .any => true
  | .tags l => l.any (fun x => decide (x.tagText = t.tagText))

/-- Whether the ETag passes the `If-None-Match` precondition
(embeds `IfNoneMatch::precondition_passes`: the negation of the weak
range match). -/
def preconditionPasses (r : EntityTagRange) (t : EntityTag) : Bool :=
  !matchesWeak r t

/-- The quoted/raw pair built per file at embed time
(embeds `ETagHeaderValue` of `dist/lib.rs`: `header` is the hex digest in
double quotes, `value` is the bare hex digest). -/
structure ETagHeaderValue where
  header : String
  value : String
deriving DecidableEq, Repr

/-- Build the pair from a digest rendered as lowercase hex
(embeds `ETagHeaderValue::create`; the Blake3 digest itself is supplied by
the external embedding collaborator, so the hex text is a parameter). -/
def etagHeaderValueCreate (hexDigest : String) : ETagHeaderValue :=
  ⟨"\"" ++ hexDigest ++ "\"", hexDigest⟩

/-! ### Asset store interface (external collaborator `embed_it`) -/

/-- A servable file: the stored tag text (what `file.etag().value` returns)
and the raw plus precompressed byte buffers used by `static_handle`. -/
structure FileData where
  etagValue : String
  content : String
  brotliContent : String
  zstdContent : String
deriving DecidableEq, Repr

/-- A store entry: a file, or a directory carrying the text that
`dir.path().name()` returns for it. -/
inductive Entry where
  | file (f : FileData)
  | dir (name : String)
deriving DecidableEq, Repr

/-- The immutable asset store, as an exact-match association list
(the spec fixes `lookup(path)` to exact matching with no traversal). -/
def Store : Type := List (String × Entry)

/-- Exact-match lookup (embeds `Dist.get`). -/
def lookupStore (store : Store) (path : String) : Option Entry :=
  match store with
  | [] => none
  | (k, e) :: rest => if k = path then some e else lookupStore rest path

/-! ### Response composer (`src/server/src/bin/server.rs`) -/

/-- An HTTP response: status, headers in insertion order, body bytes. -/
structure Response where
  status : Nat
  headers : List (String × String)
  body : String
deriving DecidableEq, Repr

/-- The server's fixed preference advertisement: the `AcceptEncoding`
collected from `[(Zstd, 1000), (Brotli, 800)]`, whose `FromIterator`
formats each entry and joins them with a comma and space. -/
def serverAdvertise : String :=
  String.intercalate ", "
    [qvToString encToString ⟨.zstd, 1000⟩, qvToString encToString ⟨.brotli, 800⟩]

/-- The server-supported list as `choose_by` sees it: the advertisement
value re-parsed through the `Accept-Encoding` iterator. -/
def serverSupported : List (QualityValue Encoding) :=
  aeIterChars serverAdvertise.data

/-- Serve a found file (embeds `static_handle` from the ETag parse to the
final response): a stored tag that fails to parse is a 500; a present
`If-None-Match` whose `precondition_passes` is true short-circuits to 304
with the headers accumulated so far; otherwise the tag header is added, the
encoding is resolved (`identity` when no `Accept-Encoding` was supplied),
`Content-Encoding` and the server advertisement are added, and the matching
buffer is served with 200. -/
def serveFile (h0 : List (String × String)) (f : FileData)
    (inm : Option EntityTagRange) (ae : Option String) : Response :=
  match parseETag f.etagValue with
  | none => ⟨500, h0, ""⟩
  | some tag =>
    if (match inm with
        | some r => preconditionPasses r tag
        | none => false) then
      ⟨304, h0, ""⟩
    else
      let h1 := h0 ++ [("etag", etagToString tag)]
      match ae with
      | some raw =>
        match chooseBy (aeIterChars raw.data) serverSupported with
        | .brotli =>
          ⟨200, h1 ++ [("content-encoding", encToString .brotli),
                 ("accept-encoding", serverAdvertise)], f.brotliContent⟩
        | .zstd =>
          ⟨200, h1 ++ [("content-encoding", encToString .zstd),
                 ("accept-encoding", serverAdvertise)], f.zstdContent⟩
        | _ =>
          ⟨200, h1 ++ [("content-encoding", encToString .identity),
                 ("accept-encoding", serverAdvertise)], f.content⟩
      | none =>
        ⟨200, h1 ++ [("content-encoding", encToString .identity),
               ("accept-encoding", serverAdvertise)], f.content⟩

/-- The static-file handler (embeds `static_handle`).  `mime` abstracts the
external `mime_guess` collaborator (a fixed pure function of the path); an
invalid content-type header value is a 500 with no headers; a missing path
is a 404; a directory retries at `<dir name>/index.html`, where a second
miss is a 404 and a directory index target is a 500; a found file is served
by `serveFile`. -/
def staticHandle (mime : String → String) (store : Store) (path : String)
    (inm : Option EntityTagRange) (ae : Option String) : Response :=
  let ct := mime path
  if headerValueOk ct then
    let h0 := [("content-type", ct)]
    match lookupStore store path with
    | none => ⟨404, h0, ""⟩
    | some (.dir dname) =>
      match lookupStore store (dname ++ "/index.html") with
      | none => ⟨404, h0, ""⟩
      | some (.dir _) => ⟨500, h0, ""⟩
      | some (.file f) => serveFile h0 f inm ae
    | some (.file f) => serveFile h0 f inm ae
  else ⟨500, [], ""⟩

/-- The `/` route handler (embeds `root_handle`): serves `index.html`. -/
def rootHandle (mime : String → String) (store : Store)
    (inm : Option EntityTagRange) (ae : Option String) : Response :=
  staticHandle mime store "index.html" inm ae

/-- The `/{*path}` route handler (embeds `handle`): an absent or empty
extracted path falls back to `index.html`. -/
def handle (mime : String → String) (store : Store) (path : Option String)
    (inm : Option EntityTagRange) (ae : Option String) : Response :=
  let p :=
    match path with
    | some p => if p = "" then "index.html" else p
    | none => "index.html"
  staticHandle mime store p inm ae

/-! ### Specification-side definitions (for refinement comparisons) -/

/-- The `choose_by` algorithm as the specification words it: stable-sort the
server list by quality descending, return the first server-preferred
encoding present in the client list by value equality alone, else
`identity`. -/
def chooseBySpec (client server : List (QualityValue Encoding)) : Encoding :=
  match (sortDesc server).find?
      (fun v => client.any (fun c => decide (c.value = v.value))) with
  | some v => v.value
  | none => .identity

/-! ### Helper lemmas on splitting and joining -/

theorem splitOnChar_ne_nil (sep : Char) (l : List Char) : splitOnChar sep l ≠ [] := by
  induction l with
  | nil => simp [splitOnChar]
  | cons c cs ih =>
    simp only [splitOnChar]
    split
    · simp
    · cases h : splitOnChar sep cs with
      | nil => simp
      | cons a t => simp [h]

theorem splitOnChar_no_sep {sep : Char} {l : List Char} (h : sep ∉ l) :
    splitOnChar sep l = [l] := by
  induction l with
  | nil => rfl
  | cons c cs ih =>
    have hc : ¬ c = sep := by
      intro hc
      exact h (hc ▸ List.mem_cons_self c cs)
    have hcs : sep ∉ cs := fun hm => h (List.mem_cons_of_mem _ hm)
    simp only [splitOnChar, if_neg hc, ih hcs]

theorem splitOnChar_append_left {sep : Char} {a b : List Char} (h : sep ∉ a) :
    splitOnChar sep (a ++ sep :: b) = a :: splitOnChar sep b := by
  induction a with
  | nil => simp [splitOnChar]
  | cons c cs ih =>
    have hc : ¬ c = sep := by
      intro hc
      exact h (hc ▸ List.mem_cons_self c cs)
    have hcs : sep ∉ cs := fun hm => h (List.mem_cons_of_mem _ hm)
    show splitOnChar sep (c :: (cs ++ sep :: b)) = (c :: cs) :: splitOnChar sep b
    simp only [splitOnChar, if_neg hc]
    rw [ih hcs]

theorem splitOnChar_append_right {sep : Char} {a b : List Char} (h : sep ∉ b) :
    splitOnChar sep (a ++ sep :: b) = splitOnChar sep a ++ [b] := by
  induction a with
  | nil => simp [splitOnChar, splitOnChar_no_sep h]
  | cons c cs ih =>
    show splitOnChar sep (c :: (cs ++ sep :: b)) = splitOnChar sep (c :: cs) ++ [b]
    by_cases hc : c = sep
    · simp only [splitOnChar, if_pos hc]
      rw [ih]
      rfl
    · simp only [splitOnChar, if_neg hc]
      rw [ih]
      cases hsc : splitOnChar sep cs with
      | nil => exact absurd hsc (splitOnChar_ne_nil sep cs)
      | cons h0 t0 => simp

theorem joinSep_cons (sep : Char) (x : List Char) {rest : List (List Char)}
    (h : rest ≠ []) : joinSep sep (x :: rest) = x ++ sep :: joinSep sep rest := by
  cases rest with
  | nil => exact absurd rfl h
  | cons y t => rfl

theorem joinSep_splitOnChar (sep : Char) (l : List Char) :
    joinSep sep (splitOnChar sep l) = l := by
  induction l with
  | nil => rfl
  | cons c cs ih =>
    simp only [splitOnChar]
    by_cases hc : c = sep
    · rw [if_pos hc, joinSep_cons sep [] (splitOnChar_ne_nil sep cs), ih, hc]
      rfl
    · rw [if_neg hc]
      cases hsc : splitOnChar sep cs with
      | nil => exact absurd hsc (splitOnChar_ne_nil sep cs)
      | cons h0 t0 =>
        rw [hsc] at ih
        cases t0 with
        | nil =>
          show joinSep sep [c :: h0] = c :: cs
          have : joinSep sep [h0] = cs := ih
          simp only [joinSep] at this ⊢
          rw [this]
        | cons t1 t2 =>
          have hne : (t1 :: t2 : List (List Char)) ≠ [] := by simp
          rw [joinSep_cons sep (c :: h0) hne, joinSep_cons sep h0 hne] at *
          rw [← ih]
          simp

theorem splitOnChar_joinSep {sep : Char} :
    ∀ {segs : List (List Char)}, segs ≠ [] → (∀ x ∈ segs, sep ∉ x) →
      splitOnChar sep (joinSep sep segs) = segs := by
  intro segs
  induction segs with
  | nil => intro h; exact absurd rfl h
  | cons x rest ih =>
    intro _ hall
    cases rest with
    | nil => exact splitOnChar_no_sep (hall x (List.mem_cons_self x []))
    | cons y t =>
      rw [joinSep_cons sep x (by simp),
          splitOnChar_append_left (hall x (List.mem_cons_self x _)),
          ih (by simp) (fun z hz => hall z (List.mem_cons_of_mem x hz))]

/-- Decomposition of `qvFromStr` on a token `item ++ ';' :: seg` whose
trailing segment `seg` contains no further `';'`: the `rsplitn(2, ';')` of
the source recovers exactly `(item, seg)`, both trimmed. -/
theorem qvFromStr_split {T : Type} (parseT : List Char → Option T)
    (item seg : List Char) (h : (';' : Char) ∉ seg) :
    qvFromStr parseT (item ++ ';' :: seg) =
      (let p0 := trim seg
       let p1 := trim item
       if byteLen p0 < 2 then none
       else if isQKey p0 then
         let qPart := p0.drop 2
         if 5 < byteLen qPart then none
         else
           match parseF32 qPart with
           | none => none
           | some (sgn, v) =>
             if f32InRange sgn v then
               (parseT p1).map (fun x => ⟨x, qualityOfF32 sgn v⟩)
             else none
       else (parseT (item ++ ';' :: seg)).map (fun v => ⟨v, 1000⟩)) := by
  have hsplit : splitOnChar ';' (item ++ ';' :: seg) = splitOnChar ';' item ++ [seg] :=
    splitOnChar_append_right h
  have hlen : ¬ (splitOnChar ';' (item ++ ';' :: seg)).length ≤ 1 := by
    rw [hsplit]
    cases hi : splitOnChar ';' item with
    | nil => exact absurd hi (splitOnChar_ne_nil ';' item)
    | cons a t => simp
  have hlast : (splitOnChar ';' (item ++ ';' :: seg)).getLastD [] = seg := by
    rw [hsplit]
    exact List.getLastD_concat _ _ _
  have hdrop : (splitOnChar ';' (item ++ ';' :: seg)).dropLast = splitOnChar ';' item := by
    rw [hsplit]
    exact List.dropLast_concat
  simp only [qvFromStr, if_neg hlen, hlast, hdrop, joinSep_splitOnChar]

/-- A token with no `';'` at all keeps the default quality 1000. -/
theorem qvFromStr_single {T : Type} (parseT : List Char → Option T)
    (s : List Char) (h : (';' : Char) ∉ s) :
    qvFromStr parseT s = (parseT s).map (fun v => ⟨v, 1000⟩) := by
  have : splitOnChar ';' s = [s] := splitOnChar_no_sep h
  simp [qvFromStr, this]

/-! ### Helper lemmas on the stable sort used by `choose_by` -/

theorem mem_insertDesc {x y : QualityValue Encoding}
    {l : List (QualityValue Encoding)} :
    y ∈ insertDesc x l ↔ y = x ∨ y ∈ l := by
  induction l with
  | nil => simp [insertDesc]
  | cons a t ih =>
    simp only [insertDesc]
    split
    · simp only [List.mem_cons, ih]
      tauto
    · simp only [List.mem_cons]

theorem mem_foldl_insertDesc (l : List (QualityValue Encoding)) :
    ∀ (acc : List (QualityValue Encoding)) (y : QualityValue Encoding),
      y ∈ l.foldl (fun a x => insertDesc x a) acc ↔ y ∈ acc ∨ y ∈ l := by
  induction l with
  | nil => simp
  | cons a t ih =>
    intro acc y
    simp only [List.foldl_cons, ih, mem_insertDesc, List.mem_cons]
    tauto

theorem mem_sortDesc {y : QualityValue Encoding}
    {l : List (QualityValue Encoding)} : y ∈ sortDesc l ↔ y ∈ l := by
  simp [sortDesc, mem_foldl_insertDesc]

/-- The scanning loop of `choose_by` agrees with the specification's
membership formulation, for any client list and any scan list. -/
theorem chooseByAux_eq_spec (c : List (QualityValue Encoding)) :
    ∀ L : List (QualityValue Encoding),
      chooseByAux (sortDesc c) L =
        (match L.find? (fun v => c.any (fun x => decide (x.value = v.value))) with
         | some v => v.value
         | none => Encoding.identity) := by
  intro L
  induction L with
  | nil => rfl
  | cons v vs ih =>
    simp only [chooseByAux]
    cases hf : (sortDesc c).find? (fun q => decide (q.value = v.value)) with
    | some q =>
      have hpq : q.value = v.value := by
        have := List.find?_some hf
        exact of_decide_eq_true this
      have hq : q ∈ c := mem_sortDesc.mp (List.mem_of_find?_eq_some hf)
      have hany : c.any (fun x => decide (x.value = v.value)) = true := by
        rw [List.any_eq_true]
        exact ⟨q, hq, by simp [hpq]⟩
      have hfind :
          List.find? (fun w => c.any (fun x => decide (x.value = w.value))) (v :: vs)
            = some v :=
        List.find?_cons_of_pos vs hany
      rw [hfind]
      exact hpq
    | none =>
      have hnone : ∀ x ∈ sortDesc c, ¬ decide (x.value = v.value) = true :=
        fun x hx => List.find?_eq_none.mp hf x hx
      have hany : ¬ c.any (fun x => decide (x.value = v.value)) = true := by
        rw [Bool.not_eq_true, List.any_eq_false]
        intro x hx
        exact hnone x (mem_sortDesc.mpr hx)
      have hfind :
          List.find? (fun w => c.any (fun x => decide (x.value = w.value))) (v :: vs)
            = List.find? (fun w => c.any (fun x => decide (x.value = w.value))) vs :=
        List.find?_cons_of_neg vs hany
      rw [hfind]
      exact ih

/-- The implementation of `choose_by` refines its specification. -/
theorem chooseBy_eq_chooseBySpec (c s : List (QualityValue Encoding)) :
    chooseBy c s = chooseBySpec c s := by
  rw [chooseBy, chooseBySpec, chooseByAux_eq_spec c (sortDesc s)]

/-! ### Concrete fixtures used by closed evaluations and witnesses -/

/-- A fixed content-type guesser standing in for `mime_guess`. -/
def exMime : String → String := fun _ => "text/html"

/-- A file whose stored tag text is a valid quoted strong entity tag. -/
def exFile : FileData := ⟨"\"t1\"", "BODY", "BRO", "ZST"⟩

/-- A one-file store. -/
def exStore : Store := [("a.txt", Entry.file exFile)]

/-- A store whose stored tag text is the bare hex digest, exactly as
`static_handle` reads it from `ETagHeaderValue::create` via `.value`. -/
def exStoreHex : Store :=
  [("index.html", Entry.file ⟨(etagHeaderValueCreate "ab12cd").value, "B", "BR", "ZS"⟩)]

/-! ### Claim theorems -/

/-- C1: the claim states that when `precondition_passes(t)` is false
(`If-None-Match` is `Any` or lists a tag weak-equal to `t`) the composer
responds 304 with no body, and when it is true the composer serves the full
body with 200.  The code does the opposite: `precondition_passes` itself
does return false exactly on a weak match or `Any` (first three conjuncts),
but `static_handle` returns 304 when `precondition_passes` is TRUE and
serves the full 200 body when it is FALSE, as the two closed evaluations
show: a request whose `If-None-Match` lists the file's exact tag gets 200
with the body, and a request listing a non-matching tag gets 304. -/
theorem claim_c1_code_divergence :
    preconditionPasses (.tags [⟨false, "t1"⟩]) ⟨false, "t1"⟩ = false ∧
    preconditionPasses .any ⟨false, "t1"⟩ = false ∧
    preconditionPasses (.tags [⟨false, "zz"⟩]) ⟨false, "t1"⟩ = true ∧
    staticHandle exMime exStore "a.txt" (some (.tags [⟨false, "t1"⟩])) none =
      ⟨200, [("content-type", "text/html"), ("etag", "\"t1\""),
             ("content-encoding", "identity"),
             ("accept-encoding", "zstd, br; q=0.8")], "BODY"⟩ ∧
    staticHandle exMime exStore "a.txt" (some (.tags [⟨false, "zz"⟩])) none =
      ⟨304, [("content-type", "text/html")], ""⟩ := by
  refine ⟨by decide, by decide, by decide, by decide, by decide⟩

/-- C2: the claim states every 200/304 response carries an `ETag` header
holding a quoted strong tag derived from the digest, and that the 304
response carries the tag header.  The code fails this twice: (1)
`static_handle` parses `file.etag().value` — the BARE hex digest, while the
quoted form lives in the `.header` field — so the entity-tag parse fails
and every found file yields 500 with no `ETag` header at all (conjuncts
3–5); (2) even with a parseable stored tag, the 304 return fires before
the `etag` header is inserted, so the 304 response carries no `ETag`
(last conjunct: its headers are only the content type). -/
theorem claim_c2_code_divergence :
    (etagHeaderValueCreate "ab12cd").header = "\"ab12cd\"" ∧
    (etagHeaderValueCreate "ab12cd").value = "ab12cd" ∧
    parseETag (etagHeaderValueCreate "ab12cd").header = some ⟨false, "ab12cd"⟩ ∧
    parseETag (etagHeaderValueCreate "ab12cd").value = none ∧
    staticHandle exMime exStoreHex "index.html" none none =
      ⟨500, [("content-type", "text/html")], ""⟩ ∧
    staticHandle exMime exStore "a.txt" (some (.tags [⟨false, "nomatch"⟩])) none =
      ⟨304, [("content-type", "text/html")], ""⟩ := by
  refine ⟨rfl, rfl, by decide, by decide, by decide, by decide⟩

/-- C3: `choose_by(c, s)` stable-sorts the server list `s` by quality
descending (ties keep original order), returns the first server-preferred
encoding present in `c` by value equality alone — client-side qualities,
including 0, are never compared (second conjunct: any remapping of the
client qualities leaves the result unchanged) — and returns `identity`
when none is present; the two examples from the claim follow. -/
theorem claim_c3_choose_by :
    (∀ c s, chooseBy c s = chooseBySpec c s) ∧
    (∀ (c s : List (QualityValue Encoding)) (f : QualityValue Encoding → Nat),
        chooseBy (c.map (fun x => ⟨x.value, f x⟩)) s = chooseBy c s) ∧
    chooseBy [⟨.gzip, 400⟩, ⟨.identity, 500⟩, ⟨.zstd, 900⟩]
        [⟨.identity, 500⟩, ⟨.zstd, 900⟩] = .zstd ∧
    chooseBy [⟨.gzip, 400⟩, ⟨.identity, 500⟩, ⟨.zstd, 900⟩]
        [⟨.identity, 500⟩, ⟨.zstd, 500⟩] = .identity ∧
    (∀ s, chooseBy [] s = .identity) := by
  refine ⟨chooseBy_eq_chooseBySpec, ?_, by decide, by decide, ?_⟩
  · intro c s f
    rw [chooseBy_eq_chooseBySpec, chooseBy_eq_chooseBySpec]
    unfold chooseBySpec
    have hp :
        (fun v : QualityValue Encoding =>
            (c.map (fun x => (⟨x.value, f x⟩ : QualityValue Encoding))).any
              (fun x => decide (x.value = v.value)))
          = (fun v : QualityValue Encoding =>
              c.any (fun x => decide (x.value = v.value))) := by
      funext v
      rw [List.any_map]
      rfl
    rw [hp]
  · intro s
    rw [chooseBy_eq_chooseBySpec]
    unfold chooseBySpec
    have hp :
        (fun v : QualityValue Encoding =>
            ([] : List (QualityValue Encoding)).any
              (fun x => decide (x.value = v.value)))
          = fun _ => false := by
      funext v
      rfl
    rw [hp]
    have hfind : (sortDesc s).find? (fun _ => false) = none := by
      rw [List.find?_eq_none]
      intro x _
      simp
    rw [hfind]

/-- A store with a directory whose `index.html` is a file. -/
def exStoreDir : Store := [("d", Entry.dir "d"), ("d/index.html", Entry.file exFile)]

/-- A store with a directory whose `index.html` is itself a directory. -/
def exStoreDirBad : Store := [("d", Entry.dir "d"), ("d/index.html", Entry.dir "x")]

/-- A store with a nested directory whose recorded `path().name()` is the
last path component only, together with a path-keyed index file. -/
def exStoreNested : Store :=
  [("assets/img", Entry.dir "img"), ("assets/img/index.html", Entry.file exFile)]

/-- C4 counterexample to the claim as stated: the claim says a directory
hit "appends /index.html to the path and repeats the lookup", serving the
file that lookup finds; but `static_handle` keys the second lookup on the
directory entry's own recorded name (`dir.path().name()`), not on the
request path.  In a store whose directory entry `"assets/img"` records the
name `"img"`, the path-appended lookup `"assets/img/index.html"` does find
a file, yet the composer answers 404 because it looked up
`"img/index.html"` instead. -/
theorem claim_c4_counterexample :
    lookupStore exStoreNested ("assets/img" ++ "/index.html") =
      some (.file exFile) ∧
    lookupStore exStoreNested ("img" ++ "/index.html") = none ∧
    staticHandle exMime exStoreNested "assets/img" none none =
      ⟨404, [("content-type", "text/html")], ""⟩ := by
  exact ⟨by decide, by decide, by decide⟩

/-- C4 as amended: for every request path, a lookup miss is a 404; a
directory entry triggers a second lookup keyed on the directory entry's
own recorded name (`dir.path().name()`) extended by `/index.html` — not on
the request path, with which it coincides only when the two are equal —
where a miss is a 404, a directory index target is a 500, and a file
continues into the serving pipeline (`serveFile`); a file found directly
also continues into the serving pipeline. -/
theorem claim_c4_lookup_statuses (mime : String → String) (store : Store)
    (path : String) (inm : Option EntityTagRange) (ae : Option String)
    (hmime : headerValueOk (mime path) = true) :
    (lookupStore store path = none →
        staticHandle mime store path inm ae =
          ⟨404, [("content-type", mime path)], ""⟩) ∧
    (∀ dname, lookupStore store path = some (.dir dname) →
        (lookupStore store (dname ++ "/index.html") = none →
            staticHandle mime store path inm ae =
              ⟨404, [("content-type", mime path)], ""⟩) ∧
        (∀ d2, lookupStore store (dname ++ "/index.html") = some (.dir d2) →
            staticHandle mime store path inm ae =
              ⟨500, [("content-type", mime path)], ""⟩) ∧
        (∀ f, lookupStore store (dname ++ "/index.html") = some (.file f) →
            staticHandle mime store path inm ae =
              serveFile [("content-type", mime path)] f inm ae)) ∧
    (∀ f, lookupStore store path = some (.file f) →
        staticHandle mime store path inm ae =
          serveFile [("content-type", mime path)] f inm ae) := by
  refine ⟨?_, ?_, ?_⟩
  · intro h
    simp only [staticHandle, if_pos hmime, h]
  · intro dname hd
    refine ⟨?_, ?_, ?_⟩
    · intro h2
      simp only [staticHandle, if_pos hmime, hd, h2]
    · intro d2 h2
      simp only [staticHandle, if_pos hmime, hd, h2]
    · intro f h2
      simp only [staticHandle, if_pos hmime, hd, h2]
  · intro f h
    simp only [staticHandle, if_pos hmime, h]

/-- C4 witness: the amended theorem applied to concrete stores exercising
the miss, file-via-index, index-is-directory, index-miss-under-the-name-key
and direct-file cases. -/
theorem claim_c4_witness :
    staticHandle exMime [] "p" none none =
      ⟨404, [("content-type", exMime "p")], ""⟩ ∧
    staticHandle exMime exStoreDir "d" none none =
      serveFile [("content-type", exMime "d")] exFile none none ∧
    staticHandle exMime exStoreDirBad "d" none none =
      ⟨500, [("content-type", exMime "d")], ""⟩ ∧
    staticHandle exMime exStoreNested "assets/img" none none =
      ⟨404, [("content-type", exMime "assets/img")], ""⟩ ∧
    staticHandle exMime exStore "a.txt" none none =
      serveFile [("content-type", exMime "a.txt")] exFile none none := by
  refine ⟨?_, ?_, ?_, ?_, ?_⟩
  · exact (claim_c4_lookup_statuses exMime [] "p" none none (by decide)).1 (by decide)
  · exact ((claim_c4_lookup_statuses exMime exStoreDir "d" none none
      (by decide)).2.1 "d" (by decide)).2.2 exFile (by decide)
  · exact ((claim_c4_lookup_statuses exMime exStoreDirBad "d" none none
      (by decide)).2.1 "d" (by decide)).2.1 "x" (by decide)
  · exact ((claim_c4_lookup_statuses exMime exStoreNested "assets/img" none none
      (by decide)).2.1 "img" (by decide)).1 (by decide)
  · exact (claim_c4_lookup_statuses exMime exStore "a.txt" none none
      (by decide)).2.2 exFile (by decide)

/-- C5 counterexample to the claim as stated: a trailing segment of
trimmed length 1 is not ignored — the whole token fails (the claim would
give `Ext "gzip;x"` with quality 1000); and the token `x;q=0.251` stores
quality 250, not the exact truncation 251 of `0.251 * 1000`, because the
code computes in 32-bit floating point (`0.251f32 * 1000f32` is just below
251 and `as u16` truncates toward zero). -/
theorem claim_c5_counterexample :
    qvEnc ("gzip;x".data) = none ∧
    qvEnc ("x;q=0.251".data) = some ⟨.ext "x", 250⟩ := by
  exact ⟨by decide, by decide⟩

/-- C5 as amended: on a token `item ++ ';' ++ seg` whose trailing segment
`seg` contains no further `';'`, a trailing segment of trimmed byte length
below 2 fails the whole token; a longer trailing segment not starting with
`q=`/`Q=` is ignored and the whole raw text re-parses as the item with
default quality 1000; a `q=`-segment requires a quality text of at most 5
bytes that parses as an `f32` in `[0, 1]`, otherwise the whole token
fails, and on success the stored quality is the truncation toward zero of
the 32-bit floating point product `f32(q) * 1000f32` (not the exact
truncation of `q * 1000`); a token with no `';'` keeps quality 1000. -/
theorem claim_c5_amended (item seg : List Char) (hsep : (';' : Char) ∉ seg) :
    (byteLen (trim seg) < 2 → qvEnc (item ++ ';' :: seg) = none) ∧
    (2 ≤ byteLen (trim seg) → isQKey (trim seg) = false →
        qvEnc (item ++ ';' :: seg) =
          some ⟨Encoding.fromStr (String.mk (item ++ ';' :: seg)), 1000⟩) ∧
    (isQKey (trim seg) = true → 2 ≤ byteLen (trim seg) →
        (5 < byteLen ((trim seg).drop 2) → qvEnc (item ++ ';' :: seg) = none) ∧
        (byteLen ((trim seg).drop 2) ≤ 5 →
            (parseF32 ((trim seg).drop 2) = none →
                qvEnc (item ++ ';' :: seg) = none) ∧
            (∀ sgn v, parseF32 ((trim seg).drop 2) = some (sgn, v) →
                (f32InRange sgn v = false →
                    qvEnc (item ++ ';' :: seg) = none) ∧
                (f32InRange sgn v = true →
                    qvEnc (item ++ ';' :: seg) =
                      some ⟨Encoding.fromStr (String.mk (trim item)),
                            qualityOfF32 sgn v⟩)))) ∧
    (∀ s : List Char, (';' : Char) ∉ s →
        qvEnc s = some ⟨Encoding.fromStr (String.mk s), 1000⟩) := by
  have h := qvFromStr_split encParse item seg hsep
  simp only [] at h
  refine ⟨?_, ?_, ?_, ?_⟩
  · intro hlt
    show qvFromStr encParse (item ++ ';' :: seg) = none
    rw [h, if_pos hlt]
  · intro hge hq
    show qvFromStr encParse (item ++ ';' :: seg) = _
    rw [h, if_neg (by omega), if_neg (by simp [hq])]
    rfl
  · intro hq _
    constructor
    · intro h5
      show qvFromStr encParse (item ++ ';' :: seg) = none
      rw [h, if_neg (by omega), if_pos (by simp [hq]), if_pos h5]
    · intro h5
      constructor
      · intro hpf
        show qvFromStr encParse (item ++ ';' :: seg) = none
        rw [h, if_neg (by omega), if_pos (by simp [hq]), if_neg (by omega), hpf]
      · intro sgn v hpf
        constructor
        · intro hr
          show qvFromStr encParse (item ++ ';' :: seg) = none
          rw [h, if_neg (by omega), if_pos (by simp [hq]), if_neg (by omega), hpf]
          simp [hr]
        · intro hr
          show qvFromStr encParse (item ++ ';' :: seg) = _
          rw [h, if_neg (by omega), if_pos (by simp [hq]), if_neg (by omega), hpf]
          simp [hr, encParse]
  · intro s hs
    show qvFromStr encParse s = _
    rw [qvFromStr_single encParse s hs]
    rfl

/-- C5 witness: the amended theorem applied at a failing concrete token
and at a successful one. -/
theorem claim_c5_witness :
    qvEnc ("gzip".data ++ ';' :: "x".data) = none ∧
    qvEnc ("identity".data ++ ';' :: " q=0.5".data) =
      some ⟨Encoding.identity, 500⟩ := by
  constructor
  · exact (claim_c5_amended "gzip".data "x".data (by decide)).1 (by decide)
  · have h :=
      ((((claim_c5_amended "identity".data " q=0.5".data (by decide)).2.2.1
          (by decide) (by decide)).2 (by decide)).2 false (some (8388608, 16777216))
          (by decide)).2 (by decide)
    exact h.trans (by decide)

/-- C6: parsing an `Accept-Encoding` value splits on commas, parses each
trimmed segment as a quality value and discards only the segments that
fail to parse — a malformed entry never invalidates the rest — and the
claim's example value yields exactly Gzip:1000, Identity:500, Ext "*":0
in that order. -/
theorem claim_c6_lenient_parsing :
    aeIterChars ("gzip;q=1.0, identity; q=0.5, *;q=0".data) =
      [⟨.gzip, 1000⟩, ⟨.identity, 500⟩, ⟨.ext "*", 0⟩] ∧
    (∀ segs : List (List Char), segs ≠ [] → (∀ x ∈ segs, (',' : Char) ∉ x) →
        aeIterChars (joinSep ',' segs) =
          segs.filterMap (fun x => qvEnc (trim x))) := by
  constructor
  · decide
  · intro segs hne hall
    show (((splitOnChar ',' (joinSep ',' segs)).map trim).filterMap qvEnc) = _
    rw [splitOnChar_joinSep hne hall, List.filterMap_map]
    rfl

/-- C6 witness: the leniency clause applied to a list with one malformed
segment (its trailing `;x` fails the quality grammar) between two good
ones — only the malformed entry is dropped. -/
theorem claim_c6_witness :
    aeIterChars (joinSep ',' ["gzip".data, "x;y".data, " br; q=0.8".data]) =
      (["gzip".data, "x;y".data, " br; q=0.8".data] : List (List Char)).filterMap
        (fun x => qvEnc (trim x)) :=
  claim_c6_lenient_parsing.2 ["gzip".data, "x;y".data, " br; q=0.8".data]
    (by decide) (by decide)

set_option maxRecDepth 8000 in
/-- C7: formatting a quality emits no suffix at 1000, `"; q=0"` at 0, and
otherwise `"; q=0."` followed by the three zero-padded digits with
trailing zeros trimmed — a nonempty digit string with no trailing zero
that still denotes the same quality (`digits * 10^(3-len) = q`); in
particular 500 renders `"; q=0.5"` and 532 renders `"; q=0.532"`; this
holds for every quality in `[0, 1000]`. -/
theorem claim_c7_format (q : Nat) (hq : q ≤ 1000) :
    (q = 1000 → fmtSuffix q = "") ∧
    (q = 0 → fmtSuffix q = "; q=0") ∧
    (1 ≤ q → q ≤ 999 →
        fmtSuffix q = "; q=0." ++ String.mk (trimZeros (pad3 q)) ∧
        trimZeros (pad3 q) ≠ [] ∧
        (trimZeros (pad3 q)).getLast? ≠ some '0' ∧
        digitsVal (trimZeros (pad3 q)) * 10 ^ (3 - (trimZeros (pad3 q)).length) = q) ∧
    fmtSuffix 500 = "; q=0.5" ∧ fmtSuffix 532 = "; q=0.532" := by
  refine ⟨?_, ?_, ?_, by decide, by decide⟩
  · intro h
    subst h
    rfl
  · intro h
    subst h
    rfl
  · intro h1 h9
    have hshape : fmtSuffix q = "; q=0." ++ String.mk (trimZeros (pad3 q)) := by
      rw [fmtSuffix, if_neg (by omega), if_neg (by omega)]
    have hbound : ∀ n : Nat, n < 1000 → 1 ≤ n →
        (trimZeros (pad3 n) ≠ [] ∧
         (trimZeros (pad3 n)).getLast? ≠ some '0' ∧
         digitsVal (trimZeros (pad3 n)) * 10 ^ (3 - (trimZeros (pad3 n)).length) = n) := by
      decide
    have hb := hbound q (by omega) h1
    exact ⟨hshape, hb.1, hb.2.1, hb.2.2⟩

/-- C7 witness: the theorem applied at 1000, 0, and 500. -/
theorem claim_c7_witness :
    fmtSuffix 1000 = "" ∧ fmtSuffix 0 = "; q=0" ∧
    fmtSuffix 500 = "; q=0." ++ String.mk (trimZeros (pad3 500)) := by
  refine ⟨(claim_c7_format 1000 (by decide)).1 rfl,
          (claim_c7_format 0 (by decide)).2.1 rfl,
          ((claim_c7_format 500 (by decide)).2.2.1 (by decide) (by decide)).1⟩

/-- C8: parsing an encoding token never fails — the eight known tokens map
to their dedicated variants, every other string is captured as `ext` — and
formatting any non-`ext` encoding and re-parsing yields the original
value. -/
theorem claim_c8_encoding_roundtrip :
    (Encoding.fromStr "chunked" = .chunked ∧ Encoding.fromStr "br" = .brotli ∧
     Encoding.fromStr "gzip" = .gzip ∧ Encoding.fromStr "deflate" = .deflate ∧
     Encoding.fromStr "compress" = .compress ∧
     Encoding.fromStr "identity" = .identity ∧
     Encoding.fromStr "trailers" = .trailers ∧ Encoding.fromStr "zstd" = .zstd) ∧
    (∀ s : String,
        s ∉ (["chunked", "br", "deflate", "gzip", "compress", "identity",
              "trailers", "zstd"] : List String) →
        Encoding.fromStr s = .ext s) ∧
    (∀ e : Encoding, (∀ t, e ≠ .ext t) →
        Encoding.fromStr (encToString e) = e) := by
  refine ⟨by decide, ?_, ?_⟩
  · intro s hs
    unfold Encoding.fromStr
    split_ifs with h1 h2 h3 h4 h5 h6 h7 h8
    · exact absurd (by simp [h1]) hs
    · exact absurd (by simp [h2]) hs
    · exact absurd (by simp [h3]) hs
    · exact absurd (by simp [h4]) hs
    · exact absurd (by simp [h5]) hs
    · exact absurd (by simp [h6]) hs
    · exact absurd (by simp [h7]) hs
    · exact absurd (by simp [h8]) hs
    · rfl
  · intro e he
    cases e with
    | ext t => exact absurd rfl (he t)
    | chunked => decide
    | brotli => decide
    | gzip => decide
    | deflate => decide
    | compress => decide
    | identity => decide
    | trailers => decide
    | zstd => decide

/-- C8 witness: an unknown token round-trips through `ext` and a known
token round-trips through format-then-parse. -/
theorem claim_c8_witness :
    Encoding.fromStr "x-custom" = .ext "x-custom" ∧
    Encoding.fromStr (encToString .gzip) = .gzip :=
  ⟨claim_c8_encoding_roundtrip.2.1 "x-custom" (by decide),
   claim_c8_encoding_roundtrip.2.2 .gzip (fun _ h => Encoding.noConfusion h)⟩

/-- C9: the request-handling core is deterministic — `static_handle` is a
pure function of the path, the `If-None-Match` value and the
`Accept-Encoding` value over a fixed immutable store (and the fixed
content-type guesser), so equal inputs produce identical
(status, headers, body). -/
theorem claim_c9_deterministic (mime : String → String) (store : Store)
    (p p' : String) (inm inm' : Option EntityTagRange) (ae ae' : Option String)
    (hp : p = p') (hinm : inm = inm') (hae : ae = ae') :
    staticHandle mime store p inm ae = staticHandle mime store p' inm' ae' := by
  subst hp
  subst hinm
  subst hae
  rfl

/-- C9 witness: the theorem applied at syntactically different but equal
concrete inputs. -/
theorem claim_c9_witness :
    staticHandle exMime exStore "a.txt" none (some ("gz" ++ "ip")) =
      staticHandle exMime exStore ("a" ++ ".txt") none (some "gzip") :=
  claim_c9_deterministic exMime exStore "a.txt" ("a" ++ ".txt") none none
    (some ("gz" ++ "ip")) (some "gzip") (by decide) rfl (by decide)

/-- C10: a request for `/` (`root_handle`), a request with an absent path
and a request with an empty extracted path are all served as the asset
`index.html`, with headers and body identical to an explicit request for
`index.html`. -/
theorem claim_c10_root_index (mime : String → String) (store : Store)
    (inm : Option EntityTagRange) (ae : Option String) :
    rootHandle mime store inm ae = staticHandle mime store "index.html" inm ae ∧
    handle mime store none inm ae = staticHandle mime store "index.html" inm ae ∧
    handle mime store (some "") inm ae =
      staticHandle mime store "index.html" inm ae ∧
    handle mime store (some "index.html") inm ae =
      staticHandle mime store "index.html" inm ae := by
  refine ⟨rfl, rfl, ?_, ?_⟩
  · simp [handle]
  · show (if ("index.html" : String) = "" then
        staticHandle mime store "index.html" inm ae
      else staticHandle mime store "index.html" inm ae) =
      staticHandle mime store "index.html" inm ae
    rw [if_neg (by decide)]

end StaticServer
